import Mathlib

/-!
Verification development for the `logfix` log normalization and classification
pipeline (`src/logfix/src/main.rs`).

Texts are modelled as `List Char`.  Pure Rust functions are translated into
Lean functions of the same name.  Third-party collaborators (the serde JSON and
YAML parsers, the tiktoken tokenizer, the `similar` diff engine) are modelled
at their interfaces: the parsers and the tokenizer are parameters, the diff
engine is re-implemented from its documented contract.
-/

/-- A text or a single log record, modelled as its character sequence. -/
abbrev Line := List Char

/-- Model of Rust `str::trim`: drop whitespace from both ends. -/
def rustTrim (s : Line) : Line :=
  ((s.dropWhile Char.isWhitespace).reverse.dropWhile Char.isWhitespace).reverse

/-- Model of Rust `str::starts_with` on character sequences. -/
def startsWithSeq : Line → Line → Bool
  | [], _ => true
  | _ :: _, [] => false
  | p :: ps, c :: cs => if c = p then startsWithSeq ps cs else false

/-- Model of Rust `str::contains` with a multi-character pattern. -/
def containsSeq (pat : Line) : Line → Bool
  | [] => pat.isEmpty
  | c :: rest => startsWithSeq pat (c :: rest) || containsSeq pat rest

/-- Model of Rust `str::contains` with a single-character pattern. -/
def containsChar (a : Char) : Line → Bool
  | [] => false
  | c :: rest => if c = a then true else containsChar a rest

/-- Translation of `detect_log_format` (src/logfix/src/main.rs, lines 181-191). -/
def detect_log_format (contents : Line) : String :=
  if startsWithSeq ['{'] (rustTrim contents) then "json"
  else if startsWithSeq ['-', '-', '-'] (rustTrim contents) ||
      containsSeq [':', '\n'] contents then "yaml"
  else if containsChar '=' contents then "toml"
  else "plain"

/-- Helper for `rustLines`: split on newline characters, keeping a possibly
empty final piece. -/
def splitNlAux (acc : Line) : Line → List Line
  | [] => [acc.reverse]
  | c :: rest =>
    if c = '\n' then acc.reverse :: splitNlAux [] rest
    else splitNlAux (c :: acc) rest

/-- Helper for `rustLines`: drop one trailing carriage return, as Rust
`str::lines` does. -/
def stripCr (l : Line) : Line :=
  if l.getLast? = some '\r' then l.dropLast else l

/-- Model of Rust `str::lines`: split on `'\n'`, drop the final empty piece
produced by a trailing newline, and strip one trailing `'\r'` per line. -/
def rustLines (s : Line) : List Line :=
  let parts := splitNlAux [] s
  let parts := if parts.getLast? = some [] then parts.dropLast else parts
  parts.map stripCr

/-- Translation of `parse_log` (src/logfix/src/main.rs, lines 193-199).  The
serde JSON and YAML parsers are external crates; they are passed in as the
parameters `jp` and `yp`, where `none` models a parse failure (`Err`) and
`some rs` a successful parse to a sequence of strings.  `Option.getD` models
`unwrap_or_else(|_| vec![contents.to_string()])`. -/
def parse_log (jp yp : Line → Option (List Line)) (contents : Line) : List Line :=
  if detect_log_format contents = "json" then (jp contents).getD [contents]
  else if detect_log_format contents = "yaml" then (yp contents).getD [contents]
  else rustLines contents

/-- A parser that always fails, for concrete instantiations. -/
def jpNone : Line → Option (List Line) := fun _ => none

theorem startsWithSeq_iff (pat : Line) : ∀ s : Line,
    startsWithSeq pat s = true ↔ ∃ t, s = pat ++ t := by
  induction pat with
  | nil => intro s; simp [startsWithSeq]
  | cons p ps ih =>
    intro s
    cases s with
    | nil => simp [startsWithSeq]
    | cons c cs =>
      by_cases h : c = p
      · subst h
        simp [startsWithSeq, ih]
      · simp [startsWithSeq, h]

theorem containsSeq_iff (pat : Line) : ∀ s : Line,
    containsSeq pat s = true ↔ ∃ l r, s = l ++ pat ++ r := by
  intro s
  induction s with
  | nil =>
    simp [containsSeq, List.isEmpty_iff]
  | cons c cs ih =>
    simp only [containsSeq, Bool.or_eq_true, startsWithSeq_iff, ih]
    constructor
    · rintro (⟨t, ht⟩ | ⟨l, r, h⟩)
      · exact ⟨[], t, by simpa using ht⟩
      · exact ⟨c :: l, r, by simp [h]⟩
    · rintro ⟨l, r, h⟩
      cases l with
      | nil => exact Or.inl ⟨r, by simpa using h⟩
      | cons a l' =>
        simp only [List.cons_append, List.cons.injEq] at h
        exact Or.inr ⟨l', r, h.2⟩

theorem containsChar_iff (a : Char) : ∀ s : Line,
    containsChar a s = true ↔ a ∈ s := by
  intro s
  induction s with
  | nil => simp [containsChar]
  | cons c cs ih =>
    by_cases h : c = a
    · subst h; simp [containsChar]
    · simp [containsChar, h, ih]
      exact fun hc => absurd hc.symm h

/-- C5: if the detected format is JSON (resp. YAML) and the corresponding
parser fails on the text, extraction returns exactly one record equal to the
original text.  Extraction as a whole is a total Lean function, so it never
fails on any input. -/
theorem parse_fallback_single_record (jp yp : Line → Option (List Line)) (contents : Line) :
    (detect_log_format contents = "json" → jp contents = none →
      parse_log jp yp contents = [contents]) ∧
    (detect_log_format contents = "yaml" → yp contents = none →
      parse_log jp yp contents = [contents]) := by
  constructor <;> intro hd hp <;> simp [parse_log, hd, hp]

/-- Witness for C5: a concrete JSON-shaped text and a concrete YAML-shaped
text, with parsers that fail, each extract to the single original record. -/
theorem parse_fallback_single_record_witness :
    parse_log jpNone jpNone ['{', 'x'] = [['{', 'x']] ∧
    parse_log jpNone jpNone ['-', '-', '-', 'a'] = [['-', '-', '-', 'a']] :=
  ⟨(parse_fallback_single_record jpNone jpNone ['{', 'x']).1 (by decide) rfl,
   (parse_fallback_single_record jpNone jpNone ['-', '-', '-', 'a']).2 (by decide) rfl⟩

/-- C6: format detection is total (a Lean function) and applies its rules in
order with first match winning: a trimmed text starting with a brace gives
"json"; otherwise a trimmed text starting with three dashes, or a text
containing a colon immediately followed by a newline, gives "yaml"; otherwise
a text containing an equals sign gives "toml"; otherwise "plain". -/
theorem detect_format_rules (contents : Line) :
    (detect_log_format contents = "json" ↔
      (∃ rest, rustTrim contents = '{' :: rest)) ∧
    (detect_log_format contents = "yaml" ↔
      ¬ (∃ rest, rustTrim contents = '{' :: rest) ∧
      ((∃ rest, rustTrim contents = '-' :: '-' :: '-' :: rest) ∨
        ∃ l r, contents = l ++ ':' :: '\n' :: r)) ∧
    (detect_log_format contents = "toml" ↔
      ¬ (∃ rest, rustTrim contents = '{' :: rest) ∧
      ¬ ((∃ rest, rustTrim contents = '-' :: '-' :: '-' :: rest) ∨
        ∃ l r, contents = l ++ ':' :: '\n' :: r) ∧
      '=' ∈ contents) ∧
    (detect_log_format contents = "plain" ↔
      ¬ (∃ rest, rustTrim contents = '{' :: rest) ∧
      ¬ ((∃ rest, rustTrim contents = '-' :: '-' :: '-' :: rest) ∨
        ∃ l r, contents = l ++ ':' :: '\n' :: r) ∧
      ¬ '=' ∈ contents) := by
  have e1 : startsWithSeq ['{'] (rustTrim contents) = true ↔
      ∃ rest, rustTrim contents = '{' :: rest := by
    rw [startsWithSeq_iff]; simp
  have e2 : (startsWithSeq ['-', '-', '-'] (rustTrim contents) ||
      containsSeq [':', '\n'] contents) = true ↔
      ((∃ rest, rustTrim contents = '-' :: '-' :: '-' :: rest) ∨
        ∃ l r, contents = l ++ ':' :: '\n' :: r) := by
    rw [Bool.or_eq_true, startsWithSeq_iff, containsSeq_iff]
    constructor
    · rintro (⟨t, ht⟩ | ⟨l, r, h⟩)
      · exact Or.inl ⟨t, by simpa using ht⟩
      · exact Or.inr ⟨l, r, by simpa using h⟩
    · rintro (⟨t, ht⟩ | ⟨l, r, h⟩)
      · exact Or.inl ⟨t, by simpa using ht⟩
      · exact Or.inr ⟨l, r, by simpa using h⟩
  have e3 : containsChar '=' contents = true ↔ '=' ∈ contents := containsChar_iff _ _
  unfold detect_log_format
  split_ifs with h1 h2 h3
  · refine ⟨by simp [e1.mp h1], ?_, ?_, ?_⟩ <;>
      simp [e1.mp h1]
  · rw [Bool.not_eq_true] at h1
    have hn1 : ¬ ∃ rest, rustTrim contents = '{' :: rest := by
      intro hc; rw [e1.mpr hc] at h1; exact absurd h1 (by simp)
    refine ⟨by simp [hn1], by simp [hn1, e2.mp h2], ?_, ?_⟩ <;>
      simp [hn1, e2.mp h2]
  · rw [Bool.not_eq_true] at h1 h2
    have hn1 : ¬ ∃ rest, rustTrim contents = '{' :: rest := by
      intro hc; rw [e1.mpr hc] at h1; exact absurd h1 (by simp)
    have hn2 : ¬ ((∃ rest, rustTrim contents = '-' :: '-' :: '-' :: rest) ∨
        ∃ l r, contents = l ++ ':' :: '\n' :: r) := by
      intro hc; rw [e2.mpr hc] at h2; exact absurd h2 (by simp)
    refine ⟨by simp [hn1], by simp [hn2], by simp [hn1, hn2, e3.mp h3], ?_⟩
    simp [e3.mp h3]
  · rw [Bool.not_eq_true] at h1 h2 h3
    have hn1 : ¬ ∃ rest, rustTrim contents = '{' :: rest := by
      intro hc; rw [e1.mpr hc] at h1; exact absurd h1 (by simp)
    have hn2 : ¬ ((∃ rest, rustTrim contents = '-' :: '-' :: '-' :: rest) ∨
        ∃ l r, contents = l ++ ':' :: '\n' :: r) := by
      intro hc; rw [e2.mpr hc] at h2; exact absurd h2 (by simp)
    have hn3 : ¬ '=' ∈ contents := by
      intro hc; rw [e3.mpr hc] at h3; exact absurd h3 (by simp)
    exact ⟨by simp [hn1], by simp [hn2], by simp [hn3], by simp [hn1, hn2, hn3]⟩


/-- Lowercase form of the `error` keyword of the regex `(?i)error[: ](.*)`. -/
def kwError : Line := ['e', 'r', 'r', 'o', 'r']

/-- Lowercase form of the `warning` keyword. -/
def kwWarning : Line := ['w', 'a', 'r', 'n', 'i', 'n', 'g']

/-- Lowercase form of the `info` keyword. -/
def kwInfo : Line := ['i', 'n', 'f', 'o']

/-- Lowercase form of the `debug` keyword. -/
def kwDebug : Line := ['d', 'e', 'b', 'u', 'g']

/-- Lowercase form of the `critical` keyword. -/
def kwCritical : Line := ['c', 'r', 'i', 't', 'i', 'c', 'a', 'l']

/-- Predicate used by the capture group `(.*)`: `.` matches any character
except a newline. -/
def notNl (c : Char) : Bool := c != '\n'

/-- Case-insensitively strip the keyword `kw` (given in lowercase) from the
front of `s`, returning the rest.  ASCII case folding models the `(?i)` flag
on the ASCII-only keywords of the source patterns. -/
def stripKw : Line → Line → Option Line
  | [], s => some s
  | _ :: _, [] => none
  | k :: ks, c :: cs => if c.toLower = k then stripKw ks cs else none

/-- Continuation of a pattern match after the keyword was stripped: one
separator character (a colon or a space), then the greedy capture of `(.*)`
running to the next newline or the end. -/
def sepCapture : Option Line → Option Line
  | some (c :: rest) =>
    if c = ':' ∨ c = ' ' then some (rest.takeWhile notNl) else none
  | _ => none

/-- Attempt to match the pattern `(?i)<kw>[: ](.*)` at the start of `s`. -/
def checkAt (kw s : Line) : Option Line := sepCapture (stripKw kw s)

/-- Model of `Regex::captures` for the source patterns: scan left to right and
return the capture of the leftmost position where the whole pattern matches,
as the regex crate's leftmost-match semantics does. -/
def findCapture (kw : Line) : Line → Option Line
  | [] => none
  | c :: rest =>
    match checkAt kw (c :: rest) with
    | some msg => some msg
    | none => findCapture kw rest

/-- Declarative form of a pattern match at the start of `s`: `s` splits into a
case-insensitive copy of the keyword, a single separator character that is a
colon or a space, and a tail whose run up to the first newline is the captured
message. -/
def MatchesAt (kw s msg : Line) : Prop :=
  ∃ p c rest, s = p ++ c :: rest ∧ p.map Char.toLower = kw ∧
    (c = ':' ∨ c = ' ') ∧ msg = rest.takeWhile notNl

/-- Declarative form of `findCapture`: the match starts at the leftmost
position where the pattern matches at all. -/
def LeftmostCapture (kw line msg : Line) : Prop :=
  ∃ i, MatchesAt kw (line.drop i) msg ∧
    ∀ j, j < i → ∀ m, ¬ MatchesAt kw (line.drop j) m

/-- The pattern for keyword `kw` matches somewhere in `line`. -/
def HasMatch (kw line : Line) : Prop := ∃ i m, MatchesAt kw (line.drop i) m

theorem stripKw_eq_some (kw : Line) : ∀ s r : Line,
    stripKw kw s = some r ↔ ∃ p, s = p ++ r ∧ p.map Char.toLower = kw := by
  induction kw with
  | nil =>
    intro s r
    simp only [stripKw, Option.some.injEq, List.map_eq_nil_iff]
    constructor
    · rintro rfl; exact ⟨[], rfl, rfl⟩
    · rintro ⟨p, h1, h2⟩; subst h2; simpa using h1
  | cons k ks ih =>
    intro s r
    cases s with
    | nil =>
      constructor
      · intro h; exact absurd h (by simp [stripKw])
      · rintro ⟨p, h1, h2⟩
        rcases List.append_eq_nil.mp h1.symm with ⟨rfl, -⟩
        simp at h2
    | cons c cs =>
      by_cases h : c.toLower = k
      · rw [stripKw, if_pos h, ih cs r]
        constructor
        · rintro ⟨p, rfl, hp⟩
          exact ⟨c :: p, rfl, by simp [hp, h]⟩
        · rintro ⟨p, h1, hp⟩
          cases p with
          | nil => exact absurd hp (by simp)
          | cons a p' =>
            simp only [List.cons_append, List.cons.injEq] at h1
            simp only [List.map_cons, List.cons.injEq] at hp
            obtain ⟨rfl, h1'⟩ := h1
            exact ⟨p', h1', hp.2⟩
      · rw [stripKw, if_neg h]
        constructor
        · intro hc; exact absurd hc (by simp)
        · rintro ⟨p, h1, hp⟩
          cases p with
          | nil => exact absurd hp (by simp)
          | cons a p' =>
            simp only [List.cons_append, List.cons.injEq] at h1
            simp only [List.map_cons, List.cons.injEq] at hp
            exact absurd (h1.1 ▸ hp.1) h

theorem checkAt_eq_some (kw s msg : Line) :
    checkAt kw s = some msg ↔ MatchesAt kw s msg := by
  unfold checkAt
  constructor
  · intro hck
    cases h : stripKw kw s with
    | none => rw [h] at hck; exact absurd hck (by simp [sepCapture])
    | some r =>
      rw [h] at hck
      cases r with
      | nil => exact absurd hck (by simp [sepCapture])
      | cons c rest =>
        by_cases hc : c = ':' ∨ c = ' '
        · rw [sepCapture, if_pos hc] at hck
          obtain ⟨p, h1, h2⟩ := (stripKw_eq_some kw s (c :: rest)).mp h
          exact ⟨p, c, rest, h1, h2, hc, (Option.some.inj hck).symm⟩
        · rw [sepCapture, if_neg hc] at hck
          exact absurd hck (by simp)
  · rintro ⟨p, c, rest, h1, h2, hc, hmsg⟩
    have hst : stripKw kw s = some (c :: rest) :=
      (stripKw_eq_some kw s (c :: rest)).mpr ⟨p, h1, h2⟩
    rw [hst, sepCapture, if_pos hc, hmsg]

theorem MatchesAt_nil_false (kw msg : Line) : ¬ MatchesAt kw [] msg := by
  rintro ⟨p, c, rest, h1, -, -, -⟩
  rcases List.append_eq_nil.mp h1.symm with ⟨-, h2⟩
  simp at h2

theorem findCapture_eq_some (kw : Line) : ∀ line msg : Line,
    findCapture kw line = some msg ↔ LeftmostCapture kw line msg := by
  intro line
  induction line with
  | nil =>
    intro msg
    constructor
    · intro h; exact absurd h (by simp [findCapture])
    · rintro ⟨i, hm, -⟩
      rw [List.drop_nil] at hm
      exact absurd hm (MatchesAt_nil_false kw msg)
  | cons c rest ih =>
    intro msg
    cases h : checkAt kw (c :: rest) with
    | some m0 =>
      have hfc : findCapture kw (c :: rest) = some m0 := by
        rw [findCapture, h]
      constructor
      · intro hm
        rw [hfc] at hm
        obtain rfl := Option.some.inj hm
        refine ⟨0, by simpa using (checkAt_eq_some kw (c :: rest) m0).mp h, ?_⟩
        intro j hj
        exact absurd hj (Nat.not_lt_zero j)
      · rintro ⟨i, hm, hmin⟩
        have hi : i = 0 := by
          by_contra hne
          exact hmin 0 (Nat.pos_of_ne_zero hne) m0
            (by simpa using (checkAt_eq_some kw (c :: rest) m0).mp h)
        subst hi
        rw [List.drop_zero] at hm
        have := (checkAt_eq_some kw (c :: rest) msg).mpr hm
        rw [h] at this
        rw [hfc, Option.some.inj this]
    | none =>
      have hnm : ∀ m, ¬ MatchesAt kw (c :: rest) m := by
        intro m hm
        have := (checkAt_eq_some kw (c :: rest) m).mpr hm
        rw [h] at this
        exact Option.noConfusion this
      have hfc : findCapture kw (c :: rest) = findCapture kw rest := by
        rw [findCapture, h]
      rw [hfc, ih msg]
      constructor
      · rintro ⟨i, hm, hmin⟩
        refine ⟨i + 1, by simpa [List.drop_succ_cons] using hm, ?_⟩
        intro j hj m
        cases j with
        | zero => simpa using hnm m
        | succ j' =>
          have hj' : j' < i := Nat.lt_of_succ_lt_succ hj
          simpa [List.drop_succ_cons] using hmin j' hj' m
      · rintro ⟨i, hm, hmin⟩
        cases i with
        | zero => exact absurd (by simpa using hm) (hnm msg)
        | succ i' =>
          refine ⟨i', by simpa [List.drop_succ_cons] using hm, ?_⟩
          intro j hj m
          simpa [List.drop_succ_cons] using hmin (j + 1) (Nat.succ_lt_succ hj) m

theorem findCapture_eq_none (kw : Line) : ∀ line : Line,
    findCapture kw line = none ↔ ¬ HasMatch kw line := by
  intro line
  induction line with
  | nil =>
    simp only [findCapture, true_iff]
    rintro ⟨i, m, hm⟩
    rw [List.drop_nil] at hm
    exact MatchesAt_nil_false kw m hm
  | cons c rest ih =>
    cases h : checkAt kw (c :: rest) with
    | some m0 =>
      have hfc : findCapture kw (c :: rest) = some m0 := by
        rw [findCapture, h]
      rw [hfc]
      constructor
      · intro hc; exact absurd hc (by simp)
      · intro hc
        exact absurd ⟨0, m0, by simpa using (checkAt_eq_some kw (c :: rest) m0).mp h⟩ hc
    | none =>
      have hnm : ∀ m, ¬ MatchesAt kw (c :: rest) m := by
        intro m hm
        have := (checkAt_eq_some kw (c :: rest) m).mpr hm
        rw [h] at this
        exact Option.noConfusion this
      have hfc : findCapture kw (c :: rest) = findCapture kw rest := by
        rw [findCapture, h]
      rw [hfc, ih]
      constructor
      · rintro hno ⟨i, m, hm⟩
        cases i with
        | zero => exact hnm m (by simpa using hm)
        | succ i' => exact hno ⟨i', m, by simpa [List.drop_succ_cons] using hm⟩
      · rintro hno ⟨i, m, hm⟩
        exact hno ⟨i + 1, m, by simpa [List.drop_succ_cons] using hm⟩

theorem hasMatch_of_found {kw line m : Line} (h : findCapture kw line = some m) :
    HasMatch kw line := by
  obtain ⟨i, hm, -⟩ := (findCapture_eq_some kw line m).mp h
  exact ⟨i, m, hm⟩

theorem not_found_not_leftmost {kw line : Line} (h : findCapture kw line = none)
    (msg : Line) : ¬ LeftmostCapture kw line msg := by
  intro hl
  rw [(findCapture_eq_some kw line msg).mpr hl] at h
  exact Option.noConfusion h

/-- Translation of the per-line classification closure of
`process_logs_by_level` (src/logfix/src/main.rs, lines 211-231): try the five
patterns in the fixed order error, warning, info, debug, critical; the first
that matches fills its slot of the result tuple with the captured message. -/
def classifyLine (line : Line) :
    Option Line × Option Line × Option Line × Option Line × Option Line :=
  match findCapture kwError line with
  | some m => (some m, none, none, none, none)
  | none =>
    match findCapture kwWarning line with
    | some m => (none, some m, none, none, none)
    | none =>
      match findCapture kwInfo line with
      | some m => (none, none, some m, none, none)
      | none =>
        match findCapture kwDebug line with
        | some m => (none, none, none, some m, none)
        | none =>
          match findCapture kwCritical line with
          | some m => (none, none, none, none, some m)
          | none => (none, none, none, none, none)

theorem classifyLine_err {line m : Line} (he : findCapture kwError line = some m) :
    classifyLine line = (some m, none, none, none, none) := by
  rw [classifyLine, he]

theorem classifyLine_warn {line m : Line} (he : findCapture kwError line = none)
    (hw : findCapture kwWarning line = some m) :
    classifyLine line = (none, some m, none, none, none) := by
  rw [classifyLine, he, hw]

theorem classifyLine_info {line m : Line} (he : findCapture kwError line = none)
    (hw : findCapture kwWarning line = none)
    (hi : findCapture kwInfo line = some m) :
    classifyLine line = (none, none, some m, none, none) := by
  rw [classifyLine, he, hw, hi]

theorem classifyLine_debug {line m : Line} (he : findCapture kwError line = none)
    (hw : findCapture kwWarning line = none)
    (hi : findCapture kwInfo line = none)
    (hd : findCapture kwDebug line = some m) :
    classifyLine line = (none, none, none, some m, none) := by
  rw [classifyLine, he, hw, hi, hd]

theorem classifyLine_crit {line m : Line} (he : findCapture kwError line = none)
    (hw : findCapture kwWarning line = none)
    (hi : findCapture kwInfo line = none)
    (hd : findCapture kwDebug line = none)
    (hc : findCapture kwCritical line = some m) :
    classifyLine line = (none, none, none, none, some m) := by
  rw [classifyLine, he, hw, hi, hd, hc]

theorem classifyLine_none {line : Line} (he : findCapture kwError line = none)
    (hw : findCapture kwWarning line = none)
    (hi : findCapture kwInfo line = none)
    (hd : findCapture kwDebug line = none)
    (hc : findCapture kwCritical line = none) :
    classifyLine line = (none, none, none, none, none) := by
  rw [classifyLine, he, hw, hi, hd, hc]

/-- C2 (amended): classification applies the five case-insensitive patterns in
the fixed priority order error, warning, info, debug, critical; each pattern is
the keyword followed by a single separator character that is either a colon or
a space, and the captured message is the remainder of the record after that
one separator character, up to but not including the next newline; the first
keyword whose pattern matches (at its leftmost occurrence in the record)
determines the single bucket. -/
theorem classify_leftmost_char_sep (line msg : Line) :
    ((classifyLine line).1 = some msg ↔ LeftmostCapture kwError line msg) ∧
    ((classifyLine line).2.1 = some msg ↔
      ¬ HasMatch kwError line ∧ LeftmostCapture kwWarning line msg) ∧
    ((classifyLine line).2.2.1 = some msg ↔
      ¬ HasMatch kwError line ∧ ¬ HasMatch kwWarning line ∧
      LeftmostCapture kwInfo line msg) ∧
    ((classifyLine line).2.2.2.1 = some msg ↔
      ¬ HasMatch kwError line ∧ ¬ HasMatch kwWarning line ∧
      ¬ HasMatch kwInfo line ∧ LeftmostCapture kwDebug line msg) ∧
    ((classifyLine line).2.2.2.2 = some msg ↔
      ¬ HasMatch kwError line ∧ ¬ HasMatch kwWarning line ∧
      ¬ HasMatch kwInfo line ∧ ¬ HasMatch kwDebug line ∧
      LeftmostCapture kwCritical line msg) := by
  cases he : findCapture kwError line with
  | some m =>
    rw [classifyLine_err he]
    refine ⟨?_, ?_, ?_, ?_, ?_⟩
    · rw [← findCapture_eq_some kwError line msg, he]
    · simp [hasMatch_of_found he]
    · simp [hasMatch_of_found he]
    · simp [hasMatch_of_found he]
    · simp [hasMatch_of_found he]
  | none =>
    have hne : ¬ HasMatch kwError line := (findCapture_eq_none kwError line).mp he
    cases hw : findCapture kwWarning line with
    | some m =>
      rw [classifyLine_warn he hw]
      refine ⟨?_, ?_, ?_, ?_, ?_⟩
      · simp [not_found_not_leftmost he msg]
      · simp only [hne, not_false_iff, true_and]
        rw [← findCapture_eq_some kwWarning line msg, hw]
      · simp [hasMatch_of_found hw]
      · simp [hasMatch_of_found hw]
      · simp [hasMatch_of_found hw]
    | none =>
      have hnw : ¬ HasMatch kwWarning line := (findCapture_eq_none kwWarning line).mp hw
      cases hi : findCapture kwInfo line with
      | some m =>
        rw [classifyLine_info he hw hi]
        refine ⟨?_, ?_, ?_, ?_, ?_⟩
        · simp [not_found_not_leftmost he msg]
        · simp [not_found_not_leftmost hw msg]
        · simp only [hne, hnw, not_false_iff, true_and]
          rw [← findCapture_eq_some kwInfo line msg, hi]
        · simp [hasMatch_of_found hi]
        · simp [hasMatch_of_found hi]
      | none =>
        have hni : ¬ HasMatch kwInfo line := (findCapture_eq_none kwInfo line).mp hi
        cases hd : findCapture kwDebug line with
        | some m =>
          rw [classifyLine_debug he hw hi hd]
          refine ⟨?_, ?_, ?_, ?_, ?_⟩
          · simp [not_found_not_leftmost he msg]
          · simp [not_found_not_leftmost hw msg]
          · simp [not_found_not_leftmost hi msg]
          · simp only [hne, hnw, hni, not_false_iff, true_and]
            rw [← findCapture_eq_some kwDebug line msg, hd]
          · simp [hasMatch_of_found hd]
        | none =>
          have hnd : ¬ HasMatch kwDebug line := (findCapture_eq_none kwDebug line).mp hd
          cases hc : findCapture kwCritical line with
          | some m =>
            rw [classifyLine_crit he hw hi hd hc]
            refine ⟨?_, ?_, ?_, ?_, ?_⟩
            · simp [not_found_not_leftmost he msg]
            · simp [not_found_not_leftmost hw msg]
            · simp [not_found_not_leftmost hi msg]
            · simp [not_found_not_leftmost hd msg]
            · simp only [hne, hnw, hni, hnd, not_false_iff, true_and]
              rw [← findCapture_eq_some kwCritical line msg, hc]
          | none =>
            rw [classifyLine_none he hw hi hd hc]
            refine ⟨?_, ?_, ?_, ?_, ?_⟩
            · simp [not_found_not_leftmost he msg]
            · simp [not_found_not_leftmost hw msg]
            · simp [not_found_not_leftmost hi msg]
            · simp [not_found_not_leftmost hd msg]
            · simp [not_found_not_leftmost hc msg]

/-- Separator step as claim C2 words it: the keyword is followed by either a
colon-and-space or a space, and the captured message is the remainder of the
record verbatim after that separator. -/
def sepCaptureClaim : Option Line → Option Line
  | some (':' :: ' ' :: m) => some m
  | some (' ' :: m) => some m
  | _ => none

/-- Match attempt at one position under claim C2's reading. -/
def checkAtClaim (kw s : Line) : Option Line := sepCaptureClaim (stripKw kw s)

/-- Leftmost search under claim C2's reading. -/
def findCaptureClaim (kw : Line) : Line → Option Line
  | [] => none
  | c :: rest =>
    match checkAtClaim kw (c :: rest) with
    | some msg => some msg
    | none => findCaptureClaim kw rest

/-- Classifier under claim C2's reading of the five patterns. -/
def classifyLineClaim (line : Line) :
    Option Line × Option Line × Option Line × Option Line × Option Line :=
  match findCaptureClaim kwError line with
  | some m => (some m, none, none, none, none)
  | none =>
    match findCaptureClaim kwWarning line with
    | some m => (none, some m, none, none, none)
    | none =>
      match findCaptureClaim kwInfo line with
      | some m => (none, none, some m, none, none)
      | none =>
        match findCaptureClaim kwDebug line with
        | some m => (none, none, none, some m, none)
        | none =>
          match findCaptureClaim kwCritical line with
          | some m => (none, none, none, none, some m)
          | none => (none, none, none, none, none)

/-- Counterexample to C2 as stated: on the record `"ERROR: disk full"` the
source classifier captures everything after the single separator character
`':'`, i.e. `" disk full"` with a leading space, while the claim's
colon-and-space separator would capture `"disk full"`. -/
theorem classify_claim_sep_cex :
    classifyLine (String.toList "ERROR: disk full") ≠
      classifyLineClaim (String.toList "ERROR: disk full") := by decide

/-- The five per-severity accumulator vectors of the rayon fold/reduce
pipeline in `process_logs_by_level`. -/
@[ext] structure Buckets where
  errors : List Line
  warnings : List Line
  infos : List Line
  debugs : List Line
  criticals : List Line
deriving DecidableEq

/-- The rayon fold identity `(vec![], vec![], vec![], vec![], vec![])`. -/
def emptyBuckets : Buckets := ⟨[], [], [], [], []⟩

/-- Translation of the fold closure (src/logfix/src/main.rs, lines 232-242):
push each present message onto the accumulator vector of its bucket. -/
def foldStep (acc : Buckets) (line : Line) : Buckets :=
  let r := classifyLine line
  ⟨acc.errors ++ r.1.toList, acc.warnings ++ r.2.1.toList,
   acc.infos ++ r.2.2.1.toList, acc.debugs ++ r.2.2.2.1.toList,
   acc.criticals ++ r.2.2.2.2.toList⟩

/-- Translation of the reduce closure (src/logfix/src/main.rs, lines 243-253):
concatenate same-bucket vectors of two partial results in order. -/
def combine (a b : Buckets) : Buckets :=
  ⟨a.errors ++ b.errors, a.warnings ++ b.warnings, a.infos ++ b.infos,
   a.debugs ++ b.debugs, a.criticals ++ b.criticals⟩

/-- Sequential classification of a record sequence top-to-bottom: the
single-threaded fold over the records. -/
def aggregateSeq (records : List Line) : Buckets :=
  records.foldl foldStep emptyBuckets

/-- A rayon work shape: the records are partitioned into consecutive chunks
(the leaves, left to right); each chunk is folded locally with the fold
closure, and chunk results are combined pairwise by the reduce closure in the
tree shape in which the runtime happens to join them. -/
inductive WorkTree where
  | leaf : List Line → WorkTree
  | node : WorkTree → WorkTree → WorkTree

/-- The chunks of a work shape, in partition order. -/
def WorkTree.chunks : WorkTree → List (List Line)
  | leaf c => [c]
  | node l r => l.chunks ++ r.chunks

/-- The value computed by the rayon fold/reduce pipeline for a work shape. -/
def WorkTree.eval : WorkTree → Buckets
  | leaf c => aggregateSeq c
  | node l r => combine l.eval r.eval

theorem foldl_foldStep (ls : List Line) : ∀ a : Buckets,
    ls.foldl foldStep a = combine a (aggregateSeq ls) := by
  induction ls with
  | nil =>
    intro a
    ext <;> simp [aggregateSeq, combine, emptyBuckets]
  | cons x xs ih =>
    intro a
    rw [List.foldl_cons, ih (foldStep a x)]
    have hagg : aggregateSeq (x :: xs) = combine (foldStep emptyBuckets x) (aggregateSeq xs) := by
      rw [aggregateSeq, List.foldl_cons, ih (foldStep emptyBuckets x)]
    rw [hagg]
    ext <;> simp [combine, foldStep, emptyBuckets]

theorem aggregateSeq_append (xs ys : List Line) :
    aggregateSeq (xs ++ ys) = combine (aggregateSeq xs) (aggregateSeq ys) := by
  rw [aggregateSeq, List.foldl_append]
  exact foldl_foldStep ys (aggregateSeq xs)

/-- C1: for every record sequence and every partitioning of it into
consecutive chunks, combined in any tree shape (hence for any worker count and
any join order the runtime uses), the rayon fold/reduce pipeline of
`process_logs_by_level` computes exactly the sequential top-to-bottom fold of
the whole sequence, bucket by bucket and in order. -/
theorem process_par_eq_seq (t : WorkTree) (records : List Line)
    (h : t.chunks.flatten = records) : t.eval = aggregateSeq records := by
  induction t generalizing records with
  | leaf c =>
    subst h
    simp [WorkTree.eval, WorkTree.chunks]
  | node l r ihl ihr =>
    subst h
    rw [WorkTree.eval, WorkTree.chunks, List.flatten_append, aggregateSeq_append,
      ihl l.chunks.flatten rfl, ihr r.chunks.flatten rfl]

/-- Witness for C1: the spec's example records, split unevenly across three
chunks joined in a right-leaning tree, evaluate to the same buckets as the
sequential fold. -/
theorem process_par_eq_seq_witness :
    (WorkTree.node (WorkTree.leaf [String.toList "ERROR: disk full"])
      (WorkTree.node (WorkTree.leaf [])
        (WorkTree.leaf [String.toList "INFO: starting",
          String.toList "ERROR: network down"]))).eval =
    aggregateSeq [String.toList "ERROR: disk full", String.toList "INFO: starting",
      String.toList "ERROR: network down"] :=
  process_par_eq_seq _ _ rfl

/-- Structured summary record, translation of `LogOutput`
(src/logfix/src/main.rs, lines 19-27). -/
structure LogOutput where
  file : String
  errors : List Line
  warnings : List Line
  infos : List Line
  debugs : List Line
  criticals : List Line
deriving DecidableEq

/-- Translation of `process_logs_by_level` (src/logfix/src/main.rs, lines
201-256).  The rayon fold/reduce over the records is modelled by
`WorkTree.eval`; by `process_par_eq_seq` its value is the same for every
partition and join order, namely `aggregateSeq` of the extracted records,
which is therefore used as the denotation here.  The JSON and YAML parsers
are parameters, as in `parse_log`. -/
def process_logs_by_level (jp yp : Line → Option (List Line)) (contents : Line) :
    LogOutput :=
  let b := aggregateSeq (parse_log jp yp contents)
  ⟨"logfile", b.errors, b.warnings, b.infos, b.debugs, b.criticals⟩

/-- C10: the `file` field of the structured summary is the constant string
"logfile", for every input text and parser behavior (the input file path is
not even available to `process_logs_by_level`). -/
theorem output_file_constant (jp yp : Line → Option (List Line)) (contents : Line) :
    (process_logs_by_level jp yp contents).file = "logfile" := rfl

/-- The end-to-end scenario input of claim C3. -/
def inputC3 : Line :=
  String.toList "ERROR: disk full\nWARNING: low memory\nrandom text\nCRITICAL: meltdown"

/-- Counterexample to C3 as stated: on the scenario input the errors bucket is
not `["disk full"]` — the single-character separator class `[: ]` of the
source regex leaves the space after the colon inside the capture. -/
theorem scenario_buckets_cex :
    (process_logs_by_level jpNone jpNone inputC3).errors ≠
      [String.toList "disk full"] := by decide

/-- C3 (amended): on the scenario input, for any parser parameters (the format
is detected as plain, so the parsers are not consulted), classification yields
errors=[" disk full"], warnings=[" low memory"], criticals=[" meltdown"],
infos=[], debugs=[], and "random text" appears in no bucket; each captured
message keeps the space that followed the colon. -/
theorem scenario_buckets_amended (jp yp : Line → Option (List Line)) :
    process_logs_by_level jp yp inputC3 =
      ⟨"logfile", [String.toList " disk full"], [String.toList " low memory"],
        [], [], [String.toList " meltdown"]⟩ := by
  have hpl : parse_log jp yp inputC3 = rustLines inputC3 := by
    rw [parse_log, if_neg (by decide), if_neg (by decide)]
  unfold process_logs_by_level
  rw [hpl]
  decide

/-- Interface of the tiktoken `cl100k_base` tokenizer used by
`optimize_log_data`: an encoder to a token sequence and a fallible decoder, as
the external crate exposes them.  The tokenizer itself is third-party code and
is passed in as a parameter. -/
structure Tokenizer where
  encode : String → List Nat
  decode : List Nat → Except String String

/-- Translation of `optimize_log_data` (src/logfix/src/main.rs, lines 84-97),
given an already initialized tokenizer: count the tokens of the text; if the
count is within the budget return the text unchanged, otherwise decode the
first `max_tokens` tokens. -/
def optimize_log_data (bpe : Tokenizer) (log_data : String) (max_tokens : Nat) :
    Except String String :=
  let tokens := bpe.encode log_data
  if tokens.length ≤ max_tokens then Except.ok log_data
  else bpe.decode (tokens.take max_tokens)

/-- Translation of `optimize_log_data` including the `cl100k_base()?` step:
`tokInit` models the tokenizer construction, which can fail with a setup
error that is propagated by `?`. -/
def optimizeWithInit (tokInit : Except String Tokenizer) (log_data : String)
    (max_tokens : Nat) : Except String String :=
  match tokInit with
  | Except.error e => Except.error e
  | Except.ok bpe => optimize_log_data bpe log_data max_tokens

/-- A concrete tokenizer for witnesses: one token per character. -/
def charTok : Tokenizer where
  encode := fun s => s.data.map Char.toNat
  decode := fun l => Except.ok (String.mk (l.map Char.ofNat))

/-- C4: whenever the token count of the text is within the positive budget,
`optimize_log_data` returns the input text unchanged, byte-for-byte, for any
tokenizer. -/
theorem truncate_id_of_fits (bpe : Tokenizer) (log_data : String) (max_tokens : Nat)
    (_hpos : 0 < max_tokens) (hfit : (bpe.encode log_data).length ≤ max_tokens) :
    optimize_log_data bpe log_data max_tokens = Except.ok log_data := by
  rw [optimize_log_data]
  exact if_pos hfit

/-- Witness for C4: a two-character text against a budget of five tokens comes
back unchanged under the concrete character tokenizer. -/
theorem truncate_id_of_fits_witness :
    optimize_log_data charTok "ab" 5 = Except.ok "ab" :=
  truncate_id_of_fits charTok "ab" 5 (by decide) (by decide)

/-- C7: the call fails exactly at the initialization step: an initialization
error is propagated unchanged for every input, and once a tokenizer is
available whose decoder succeeds on prefixes of its own encodings (the
reversibility the specification requires of the tokenization scheme), the
truncation succeeds for every input text and positive budget. -/
theorem truncate_fails_only_init (bpe : Tokenizer) (log_data : String)
    (max_tokens : Nat) (_hpos : 0 < max_tokens)
    (hdec : ∀ n : Nat, ∃ s : String,
      bpe.decode ((bpe.encode log_data).take n) = Except.ok s) :
    (∃ s : String, optimizeWithInit (Except.ok bpe) log_data max_tokens = Except.ok s) ∧
    (∀ e : String, optimizeWithInit (Except.error e) log_data max_tokens = Except.error e) := by
  constructor
  · rw [optimizeWithInit, optimize_log_data]
    by_cases hfit : (bpe.encode log_data).length ≤ max_tokens
    · exact ⟨log_data, if_pos hfit⟩
    · obtain ⟨s, hs⟩ := hdec max_tokens
      exact ⟨s, by rw [if_neg hfit]; exact hs⟩
  · intro e
    rw [optimizeWithInit]

/-- Witness for C7: the character tokenizer decodes every prefix, so a
concrete call succeeds, and a concrete initialization error is propagated. -/
theorem truncate_fails_only_init_witness :
    (∃ s : String, optimizeWithInit (Except.ok charTok) "hi" 1 = Except.ok s) ∧
    (∀ e : String, optimizeWithInit (Except.error e) "hi" 1 = Except.error e) :=
  truncate_fails_only_init charTok "hi" 1 (by decide)
    (fun n => ⟨String.mk (((charTok.encode "hi").take n).map Char.ofNat), rfl⟩)

/-- C8: token-count monotonicity of truncation.  For budgets `n1 < n2` and a
tokenizer whose decoder round-trips on prefixes of its own encodings (the
reversibility the specification requires of the scheme), the token count of
the `n1`-truncation is at most that of the `n2`-truncation, which is at most
the token count of the original text. -/
theorem truncate_token_monotone (bpe : Tokenizer) (log_data : String) (n1 n2 : Nat)
    (hlt : n1 < n2)
    (hstab : ∀ n : Nat, ∃ s : String,
      bpe.decode ((bpe.encode log_data).take n) = Except.ok s ∧
      bpe.encode s = (bpe.encode log_data).take n)
    (s1 s2 : String)
    (h1 : optimize_log_data bpe log_data n1 = Except.ok s1)
    (h2 : optimize_log_data bpe log_data n2 = Except.ok s2) :
    (bpe.encode s1).length ≤ (bpe.encode s2).length ∧
    (bpe.encode s2).length ≤ (bpe.encode log_data).length := by
  rw [optimize_log_data] at h1 h2
  by_cases hf1 : (bpe.encode log_data).length ≤ n1
  · have hf2 : (bpe.encode log_data).length ≤ n2 := le_trans hf1 (le_of_lt hlt)
    rw [if_pos hf1] at h1
    rw [if_pos hf2] at h2
    obtain rfl := Except.ok.inj h1
    obtain rfl := Except.ok.inj h2
    exact ⟨le_refl _, le_refl _⟩
  · rw [if_neg hf1] at h1
    obtain ⟨t1, ht1, he1⟩ := hstab n1
    rw [ht1] at h1
    obtain rfl := Except.ok.inj h1
    have hlen1 : (bpe.encode t1).length = n1 := by
      rw [he1, List.length_take]
      omega
    by_cases hf2 : (bpe.encode log_data).length ≤ n2
    · rw [if_pos hf2] at h2
      obtain rfl := Except.ok.inj h2
      constructor
      · rw [hlen1]; omega
      · exact le_refl _
    · rw [if_neg hf2] at h2
      obtain ⟨t2, ht2, he2⟩ := hstab n2
      rw [ht2] at h2
      obtain rfl := Except.ok.inj h2
      have hlen2 : (bpe.encode t2).length = n2 := by
        rw [he2, List.length_take]
        omega
      rw [hlen1, hlen2]
      omega

/-- Witness for C8: truncating "abc" to one and to two character tokens gives
one and two tokens respectively, both at most the three tokens of the text. -/
theorem truncate_token_monotone_witness :
    (charTok.encode "a").length ≤ (charTok.encode "ab").length ∧
    (charTok.encode "ab").length ≤ (charTok.encode "abc").length :=
  truncate_token_monotone charTok "abc" 1 2 (by decide)
    (by
      intro n
      match n with
      | 0 => exact ⟨"", rfl, rfl⟩
      | 1 => exact ⟨"a", rfl, rfl⟩
      | 2 => exact ⟨"ab", rfl, rfl⟩
      | (k + 3) =>
        have htake : (charTok.encode "abc").take (k + 3) = charTok.encode "abc" := by
          show List.take (k + 3) [97, 98, 99] = [97, 98, 99]
          simp [List.take_succ_cons, List.take_nil]
        exact ⟨"abc", by rw [htake]; rfl, by rw [htake]⟩)
    "a" "ab" rfl rfl

/-- Tag of one rendered diff line, as in `similar::ChangeTag`. -/
inductive ChangeTag where
  | delete : ChangeTag
  | insert : ChangeTag
  | equal : ChangeTag
deriving DecidableEq

/-- Modelled from the spec: the `similar` crate's Myers line diff used by
`show_diff` is external code; per section 4.6 it is a line-oriented
shortest-edit-script diff producing a minimal ordered sequence of
delete/insert/unchanged operations.  Matching equal head lines is kept, and
otherwise the shorter of the delete-first and insert-first scripts is taken,
with a deterministic tie-break. -/
def myersDiff (xs ys : List String) : List (ChangeTag × String) :=
  match xs, ys with
  | [], ys => ys.map (fun b => (ChangeTag.insert, b))
  | x :: xs', [] => (ChangeTag.delete, x) :: myersDiff xs' []
  | x :: xs', y :: ys' =>
    if x = y then (ChangeTag.equal, x) :: myersDiff xs' ys'
    else
      let dels := (ChangeTag.delete, x) :: myersDiff xs' (y :: ys')
      let inss := (ChangeTag.insert, y) :: myersDiff (x :: xs') ys'
      if dels.length ≤ inss.length then dels else inss
termination_by xs.length + ys.length
decreasing_by all_goals simp +arith

/-- The lines of the left input described by a diff: the text of every
unchanged and every deleted line, in order. -/
def restoreOld (d : List (ChangeTag × String)) : List String :=
  d.filterMap (fun p =>
    match p.1 with
    | ChangeTag.insert => none
    | _ => some p.2)

/-- The lines of the right input described by a diff: the text of every
unchanged and every inserted line, in order. -/
def restoreNew (d : List (ChangeTag × String)) : List String :=
  d.filterMap (fun p =>
    match p.1 with
    | ChangeTag.delete => none
    | _ => some p.2)

theorem restoreOld_insEach (ys : List String) :
    restoreOld (ys.map (fun b => (ChangeTag.insert, b))) = [] := by
  induction ys with
  | nil => rfl
  | cons y ys ih => simp [restoreOld, List.filterMap_cons, ih]

theorem restoreNew_insEach (ys : List String) :
    restoreNew (ys.map (fun b => (ChangeTag.insert, b))) = ys := by
  induction ys with
  | nil => rfl
  | cons y ys ih => simpa [restoreNew, List.filterMap_cons] using ih

theorem myersDiff_restore_bounded : ∀ (n : Nat) (xs ys : List String),
    xs.length + ys.length ≤ n →
    restoreOld (myersDiff xs ys) = xs ∧ restoreNew (myersDiff xs ys) = ys := by
  intro n
  induction n with
  | zero =>
    intro xs ys h
    match xs, ys with
    | [], [] =>
      rw [myersDiff]
      exact ⟨rfl, rfl⟩
    | x :: xs', ys => simp at h
    | [], y :: ys' => simp at h
  | succ n ih =>
    intro xs ys h
    match xs, ys with
    | [], ys =>
      rw [myersDiff]
      exact ⟨restoreOld_insEach ys, restoreNew_insEach ys⟩
    | x :: xs', [] =>
      obtain ⟨h1, h2⟩ := ih xs' [] (by simp at h ⊢; omega)
      rw [myersDiff]
      constructor
      · simpa [restoreOld, List.filterMap_cons] using h1
      · simpa [restoreNew, List.filterMap_cons] using h2
    | x :: xs', y :: ys' =>
      rw [myersDiff]
      by_cases hxy : x = y
      · subst hxy
        obtain ⟨h1, h2⟩ := ih xs' ys' (by simp at h ⊢; omega)
        rw [if_pos rfl]
        constructor
        · simpa [restoreOld, List.filterMap_cons] using h1
        · simpa [restoreNew, List.filterMap_cons] using h2
      · rw [if_neg hxy]
        obtain ⟨hd1, hd2⟩ := ih xs' (y :: ys') (by simp at h ⊢; omega)
        obtain ⟨hi1, hi2⟩ := ih (x :: xs') ys' (by simp at h ⊢; omega)
        by_cases hlen : ((ChangeTag.delete, x) :: myersDiff xs' (y :: ys')).length ≤
            ((ChangeTag.insert, y) :: myersDiff (x :: xs') ys').length
        · rw [if_pos hlen]
          constructor
          · simpa [restoreOld, List.filterMap_cons] using hd1
          · simpa [restoreNew, List.filterMap_cons] using hd2
        · rw [if_neg hlen]
          constructor
          · simpa [restoreOld, List.filterMap_cons] using hi1
          · simpa [restoreNew, List.filterMap_cons] using hi2

/-- The line sequence `show_diff` feeds to the differ for one input text. -/
def stringLines (s : String) : List String :=
  (rustLines s.toList).map (fun l => String.mk l)

/-- Translation of `show_diff` (src/logfix/src/main.rs, lines 56-68), with the
external Myers engine modelled by `myersDiff`: the function renders, in order,
one tagged line per change of the line diff of the two inputs. -/
def show_diff (original modified : String) : List (ChangeTag × String) :=
  myersDiff (stringLines original) (stringLines modified)

/-- C9: the diff rendered by `show_diff` satisfies the round-trip property:
the unchanged and deleted lines, in order, are exactly the lines of the
original text, and the unchanged and inserted lines, in order, are exactly the
lines of the modified text.  The diff is a Lean function of the two inputs,
hence deterministic. -/
theorem diff_round_trip (original modified : String) :
    restoreOld (show_diff original modified) = stringLines original ∧
    restoreNew (show_diff original modified) = stringLines modified :=
  myersDiff_restore_bounded
    ((stringLines original).length + (stringLines modified).length)
    (stringLines original) (stringLines modified) (le_refl _)
